import Mathlib

/-
Formal model of the MOEX ISS client core (src/iss_client.py together with the
pydantic response models in src/models.py).

Modelling conventions used throughout:

* Python dicts keyed by strings are modelled as association lists
  `List (String × α)` with Python's dict semantics: `d[k] = v` updates the
  first (and, for dicts, only) entry with key `k` in place, or appends a new
  entry at the end; iteration order is list order; lookup returns the first
  matching entry.
* JSON scalar values appearing in block rows are modelled by `Val`
  (string, integer or null).  A row of a block is `Option (List Val)`,
  matching the pydantic field `data: list[Optional[list]]` of `BlockItems`.
* Machine integers do not occur: the cursor and counts are Python ints,
  modelled as `Nat` (they are never negative: `start` begins at 0 and only
  grows by list lengths).
* The `while` loop of `MicexISSClient._get_data` is modelled with explicit
  fuel; `FetchResult.diverge` means the loop was still running when the fuel
  ran out, `FetchResult.err` means an uncaught Python exception escaped
  (an IndexError / TypeError from `flatten_response` on a malformed row).
* One HTTP round trip is recorded as one entry of a request log; the entry
  holds the value of the `start` query parameter sent with the request
  (`none` when no `start` parameter is set, as in unlimited mode).
-/

inductive Val where
  | vstr (s : String)
  | vnum (n : Int)
  | vnull
deriving DecidableEq, Repr

/-- One row of a block: `data: list[Optional[list]]` in `models.BlockItems`. -/
abbrev Row := Option (List Val)

/-- The `BlockItems` pydantic model of src/models.py: a named columnar table
with a list of column names and row-major data. -/
structure BlockItems where
  columns : List String
  data : List Row
deriving DecidableEq, Repr

/-- A normalized row: a Python dict from (uppercased) column name to value. -/
abbrev Record := List (String × Val)

/-- The result of `Blocks(**json).model_dump(exclude_none=True)`: a dict from
block name to columnar block, in model-field order.  The pydantic `Blocks`
model guarantees the keys are pairwise distinct (it is a dict). -/
abbrev Response := List (String × BlockItems)

/-- The dict `data: dict[str, list]` accumulated by `_get_data` and merged by
`_merge_data`: block name to list of normalized records. -/
abbrev Dataset := List (String × List Record)

/-- Python dict lookup `d.get(k)`: first entry with the given key. -/
def dget {α : Type} : List (String × α) → String → Option α
  | [], _ => none
  | p :: rest, k => if p.1 = k then some p.2 else dget rest k

/-- Python dict lookup with default, `d.get(k, dflt)`. -/
def dgetD {α : Type} (d : List (String × α)) (k : String) (dflt : α) : α :=
  (dget d k).getD dflt

/-- Python dict assignment `d[k] = v`: update the first entry with key `k` in
place, or append a new entry at the end. -/
def dinsert {α : Type} : List (String × α) → String → α → List (String × α)
  | [], k, v => [(k, v)]
  | p :: rest, k, v => if p.1 = k then (p.1, v) :: rest else p :: dinsert rest k v

theorem dget_dinsert_self {α : Type} (d : List (String × α)) (k : String) (v : α) :
    dget (dinsert d k v) k = some v := by
  induction d with
  | nil => simp [dinsert, dget]
  | cons p rest ih =>
    by_cases h : p.1 = k
    · simp [dinsert, dget, h]
    · simp [dinsert, dget, h, ih]

theorem dget_dinsert_ne {α : Type} (d : List (String × α)) (k k₀ : String) (v : α)
    (h : k₀ ≠ k) : dget (dinsert d k₀ v) k = dget d k := by
  induction d with
  | nil => simp [dinsert, dget, h]
  | cons p rest ih =>
    by_cases hp : p.1 = k₀
    · simp [dinsert, dget, hp, h]
    · simp only [dinsert, hp, if_false]
      by_cases hk : p.1 = k
      · simp [dget, hk]
      · simp [dget, hk, ih]

theorem dget_dinsert_isSome {α : Type} (d : List (String × α)) (k k₀ : String) (v : α) :
    (dget (dinsert d k₀ v) k).isSome = true ↔ k = k₀ ∨ (dget d k).isSome = true := by
  by_cases h : k = k₀
  · subst h; simp [dget_dinsert_self]
  · rw [dget_dinsert_ne d k k₀ v (fun he => h he.symm)]
    simp [h]

theorem dget_dinsert_eq_some {α : Type} (d : List (String × α)) (k k₀ : String) (v v₀ : α)
    (h : dget (dinsert d k₀ v₀) k = some v) :
    (k = k₀ ∧ v = v₀) ∨ dget d k = some v := by
  by_cases hk : k = k₀
  · subst hk
    rw [dget_dinsert_self] at h
    exact Or.inl ⟨rfl, (Option.some.inj h).symm⟩
  · rw [dget_dinsert_ne d k k₀ v₀ (fun he => hk he.symm)] at h
    exact Or.inr h

theorem dget_eq_none_of_not_mem {α : Type} (d : List (String × α)) (k : String)
    (h : k ∉ d.map Prod.fst) : dget d k = none := by
  induction d with
  | nil => rfl
  | cons p rest ih =>
    simp only [List.map_cons, List.mem_cons] at h
    push_neg at h
    simp [dget, Ne.symm h.1, ih h.2]

theorem dinsert_of_not_mem {α : Type} (d : List (String × α)) (k : String) (v : α)
    (h : k ∉ d.map Prod.fst) : dinsert d k v = d ++ [(k, v)] := by
  induction d with
  | nil => rfl
  | cons p rest ih =>
    simp only [List.map_cons, List.mem_cons] at h
    push_neg at h
    simp [dinsert, Ne.symm h.1, ih h.2]

/-
Endpoint resolution.  `MicexISSClient.BASE_URL` and `MicexISSClient.METHODS`
are Python format templates; `str.format` substitutes `\x7bname\x7d` holes from
keyword arguments and raises `KeyError(name)` at the first hole whose name is
missing from the supplied mapping.  There is no `ConfigurationError` anywhere
in the repository; the constructor below exists only so the spec's claimed
error kind can be stated and compared with the actual one.
-/

inductive ErrKind where
  | keyError (param : String)
  | configurationError
  | jsonDecodeError
deriving DecidableEq, Repr

inductive TPart where
  | lit (s : String)
  | hole (name : String)
deriving DecidableEq, Repr

/-- Python `str.format` over a template split into literal and hole parts:
substitute each hole from the argument mapping, failing with `KeyError` at the
first missing name. -/
def formatTemplate : List TPart → List (String × String) → Except ErrKind String
  | [], _ => Except.ok ""
  | TPart.lit s :: rest, args => (formatTemplate rest args).map (fun t => s ++ t)
  | TPart.hole n :: rest, args =>
    match dget args n with
    | none => Except.error (ErrKind.keyError n)
    | some v => (formatTemplate rest args).map (fun t => v ++ t)

/-- The hole names of a template, in order. -/
def holes : List TPart → List String
  | [] => []
  | TPart.lit _ :: rest => holes rest
  | TPart.hole n :: rest => n :: holes rest

/-- BASE_URL = https colon-slash-slash iss.moex.com/iss/ method .json -/
def BASE_URL (method : String) : String :=
  "https://iss.moex.com/iss/" ++ method ++ ".json"

/-- METHODS entry sec_history of `MicexISSClient`. -/
def METHODS_sec_history : List TPart :=
  [TPart.lit "history/engines/", TPart.hole "engine", TPart.lit "/markets/",
   TPart.hole "market", TPart.lit "/boards/", TPart.hole "board",
   TPart.lit "/securities/", TPart.hole "security"]

/-- METHODS entry sec_bondization of `MicexISSClient`. -/
def METHODS_sec_bondization : List TPart :=
  [TPart.lit "securities/", TPart.hole "secid", TPart.lit "/bondization"]

/-- METHODS entry bonds of `MicexISSClient`. -/
def METHODS_bonds : List TPart :=
  [TPart.lit "engines/stock/markets/bonds/boardgroups/", TPart.hole "boardgroup",
   TPart.lit "/securities"]

/-- The URL built by `get_securities_history` for one security id. -/
def sec_history_url (engine market board security : String) : String :=
  BASE_URL ("history/engines/" ++ engine ++ "/markets/" ++ market ++ "/boards/"
    ++ board ++ "/securities/" ++ security)

/-- The URL built by `get_bonds_bondization` for one security id. -/
def sec_bondization_url (secid : String) : String :=
  BASE_URL ("securities/" ++ secid ++ "/bondization")

/-- The URL built by `get_available_bonds` for one board group. -/
def bonds_url (boardgroup : Nat) : String :=
  BASE_URL ("engines/stock/markets/bonds/boardgroups/" ++ toString boardgroup
    ++ "/securities")

/-- With all its parameters supplied, the sec_history template renders to the
URL the client actually requests. -/
theorem formatTemplate_sec_history (engine market board security : String) :
    (formatTemplate METHODS_sec_history
      [("engine", engine), ("market", market), ("board", board),
       ("security", security)]).map BASE_URL
      = Except.ok (sec_history_url engine market board security) := by
  simp [METHODS_sec_history, formatTemplate, dget, Except.map, sec_history_url,
    BASE_URL, String.append_assoc]

/-- With its parameter supplied, the sec_bondization template renders to the
URL the client actually requests. -/
theorem formatTemplate_sec_bondization (secid : String) :
    (formatTemplate METHODS_sec_bondization [("secid", secid)]).map BASE_URL
      = Except.ok (sec_bondization_url secid) := by
  simp [METHODS_sec_bondization, formatTemplate, dget, Except.map,
    sec_bondization_url, BASE_URL, String.append_assoc]

/-- A template whose holes are not all bound fails with a KeyError naming the
first missing hole. -/
theorem formatTemplate_missing (t : List TPart) (args : List (String × String))
    (h : ∃ n ∈ holes t, dget args n = none) :
    ∃ n, dget args n = none ∧
      formatTemplate t args = Except.error (ErrKind.keyError n) := by
  induction t with
  | nil => simp [holes] at h
  | cons p rest ih =>
    cases p with
    | lit s =>
      simp only [holes] at h
      obtain ⟨n, hn, hmiss⟩ := ih h
      exact ⟨n, hn, by simp [formatTemplate, hmiss, Except.map]⟩
    | hole m =>
      by_cases hm : dget args m = none
      · exact ⟨m, hm, by simp [formatTemplate, hm]⟩
      · simp only [holes, List.mem_cons] at h
        obtain ⟨n, hn, hmiss⟩ := h
        have hrest : ∃ n ∈ holes rest, dget args n = none := by
          cases hn with
          | inl he => exact absurd (he ▸ hmiss) hm
          | inr hr => exact ⟨n, hr, hmiss⟩
        obtain ⟨n₁, hn₁, hmiss₁⟩ := ih hrest
        obtain ⟨v, hv⟩ := Option.ne_none_iff_exists.mp hm
        exact ⟨n₁, hn₁, by simp [formatTemplate, ← hv, hmiss₁, Except.map]⟩

/-- C9: resolving the bond-amortization endpoint (the sec_bondization template
embedded into BASE_URL) for secid SU26227RMFS7 yields exactly
https colon-slash-slash iss.moex.com/iss/securities/SU26227RMFS7/bondization.json -/
theorem C9_sec_bondization_url_concrete :
    (formatTemplate METHODS_sec_bondization [("secid", "SU26227RMFS7")]).map BASE_URL
      = Except.ok "https://iss.moex.com/iss/securities/SU26227RMFS7/bondization.json" := by
  rfl

/-- C7 counterexample: resolving the sec_bondization endpoint with an empty
parameter mapping fails with `KeyError("secid")` raised by `str.format`; it
does not fail with the ConfigurationError the claim names (no such error
exists in the code). -/
theorem C7_counterexample_keyError_not_configurationError :
    formatTemplate METHODS_sec_bondization [] = Except.error (ErrKind.keyError "secid") ∧
      ErrKind.keyError "secid" ≠ ErrKind.configurationError := by
  constructor
  · rfl
  · decide

/-- C7 amended: for each of the three endpoint templates (sec_history,
sec_bondization, bonds), resolving with a required path parameter missing
from the supplied mapping fails immediately with a `KeyError` naming a missing
parameter (`str.format` semantics); the code defines no ConfigurationError and
nothing retries the resolution. -/
theorem C7_amended_missing_param_keyError (args : List (String × String)) :
    ((∃ n ∈ holes METHODS_sec_history, dget args n = none) →
      ∃ n, dget args n = none ∧
        formatTemplate METHODS_sec_history args = Except.error (ErrKind.keyError n)) ∧
    ((∃ n ∈ holes METHODS_sec_bondization, dget args n = none) →
      ∃ n, dget args n = none ∧
        formatTemplate METHODS_sec_bondization args = Except.error (ErrKind.keyError n)) ∧
    ((∃ n ∈ holes METHODS_bonds, dget args n = none) →
      ∃ n, dget args n = none ∧
        formatTemplate METHODS_bonds args = Except.error (ErrKind.keyError n)) :=
  ⟨formatTemplate_missing METHODS_sec_history args,
   formatTemplate_missing METHODS_sec_bondization args,
   formatTemplate_missing METHODS_bonds args⟩

/-- C7 witness: resolving sec_bondization with no parameters at all hits the
amended theorem's hypothesis and produces the KeyError. -/
theorem C7_amended_witness :
    ∃ n, dget ([] : List (String × String)) n = none ∧
      formatTemplate METHODS_sec_bondization [] = Except.error (ErrKind.keyError n) :=
  (C7_amended_missing_param_keyError []).2.1 ⟨"secid", by decide, rfl⟩

/-
Block normalization.  `BlockItems.upper_columns_name` (src/models.py) uppercases
every column name when the block is parsed; `flatten_response` (the inner
function of `MicexISSClient._get_data`) turns the columnar block into a list of
records, one dict per data row, or returns the empty list when `columns` or
`data` is missing or empty.  A row that is null, or shorter than the column
list, makes the dict comprehension raise (TypeError / IndexError), modelled by
`none`.
-/

/-- The pydantic validator `upper_columns_name`: parsing a raw block uppercases
its column names; the row data is taken as-is. -/
def parseBlock (columns : List String) (data : List Row) : BlockItems :=
  ⟨columns.map String.toUpper, data⟩

/-- One step of the dict comprehension: insert the next column-to-value pair. -/
def buildRecord (pairs : List (String × Val)) : Record :=
  pairs.foldl (fun r p => dinsert r p.1 p.2) []

/-- The dict comprehension of `flatten_response` on one row: pairs each column
name with the row value at the column's index; a null row or a row shorter
than the column list raises (modelled as `none`). -/
def flattenRow (cols : List String) (row : Row) : Option Record :=
  match row with
  | none => none
  | some items =>
    if cols.length ≤ items.length then some (buildRecord (cols.zip items)) else none

/-- The row loop of `flatten_response`: normalize each row in order, aborting
on the first raising row. -/
def flattenRows (cols : List String) : List Row → Option (List Record)
  | [] => some []
  | r :: rs =>
    match flattenRow cols r with
    | none => none
    | some rec =>
      match flattenRows cols rs with
      | none => none
      | some recs => some (rec :: recs)

/-- The inner `flatten_response` of `MicexISSClient._get_data`: empty or
missing `columns` or `data` yields the empty record list (the `if columns and
data` guard); otherwise each data row is normalized in order. -/
def flatten_response (b : BlockItems) : Option (List Record) :=
  if b.columns = [] ∨ b.data = [] then some []
  else flattenRows b.columns b.data

theorem buildRecord_isSome_aux (ps : List (String × Val)) (acc : Record) (k : String) :
    (dget (ps.foldl (fun r p => dinsert r p.1 p.2) acc) k).isSome = true
      ↔ (dget acc k).isSome = true ∨ k ∈ ps.map Prod.fst := by
  induction ps generalizing acc with
  | nil => simp
  | cons p rest ih =>
    simp only [List.foldl_cons, List.map_cons, List.mem_cons]
    rw [ih]
    rw [dget_dinsert_isSome]
    tauto

/-- A key is present in a normalized record exactly when it is one of the
column names paired by the comprehension. -/
theorem buildRecord_isSome (ps : List (String × Val)) (k : String) :
    (dget (buildRecord ps) k).isSome = true ↔ k ∈ ps.map Prod.fst := by
  rw [buildRecord, buildRecord_isSome_aux]
  simp [dget]

theorem buildRecord_mem_aux (ps : List (String × Val)) (acc : Record) (k : String) (v : Val)
    (h : dget (ps.foldl (fun r p => dinsert r p.1 p.2) acc) k = some v) :
    (k, v) ∈ ps ∨ dget acc k = some v := by
  induction ps generalizing acc with
  | nil => simpa using h
  | cons p rest ih =>
    simp only [List.foldl_cons] at h
    rcases ih (dinsert acc p.1 p.2) h with hmem | hacc
    · exact Or.inl (List.mem_cons_of_mem _ hmem)
    · rcases dget_dinsert_eq_some acc k p.1 v p.2 hacc with ⟨hk, hv⟩ | hold
      · exact Or.inl (by rw [hk, hv]; exact List.mem_cons_self _ _)
      · exact Or.inr hold

/-- Every value stored in a normalized record comes from one of the
column-to-value pairs fed to the comprehension. -/
theorem buildRecord_mem (ps : List (String × Val)) (k : String) (v : Val)
    (h : dget (buildRecord ps) k = some v) : (k, v) ∈ ps := by
  rcases buildRecord_mem_aux ps [] k v h with hm | hacc
  · exact hm
  · simp [dget] at hacc

theorem mem_zip_get {α β : Type} (l₁ : List α) (l₂ : List β) (a : α) (b : β)
    (h : (a, b) ∈ l₁.zip l₂) : ∃ i, l₁.get? i = some a ∧ l₂.get? i = some b := by
  induction l₁ generalizing l₂ with
  | nil => simp [List.zip] at h
  | cons x xs ih =>
    cases l₂ with
    | nil => simp [List.zip] at h
    | cons y ys =>
      simp only [List.zip_cons_cons, List.mem_cons] at h
      cases h with
      | inl he =>
        refine ⟨0, ?_, ?_⟩ <;> simp [Prod.mk.injEq] at he ⊢ <;> simp [he.1, he.2]
      | inr hm =>
        obtain ⟨i, h₁, h₂⟩ := ih ys hm
        exact ⟨i + 1, by simpa using h₁, by simpa using h₂⟩

theorem flattenRows_length (cols : List String) (rows : List Row) (recs : List Record)
    (h : flattenRows cols rows = some recs) : recs.length = rows.length := by
  induction rows generalizing recs with
  | nil => simp [flattenRows] at h; simp [← h]
  | cons r rs ih =>
    simp only [flattenRows] at h
    cases hr : flattenRow cols r with
    | none => rw [hr] at h; exact absurd h (by simp)
    | some rec =>
      rw [hr] at h
      cases hrs : flattenRows cols rs with
      | none => rw [hrs] at h; exact absurd h (by simp)
      | some recs₁ =>
        rw [hrs] at h
        simp only [Option.some.injEq] at h
        simp [← h, ih recs₁ hrs]

theorem flattenRows_get (cols : List String) (rows : List Row) (recs : List Record)
    (h : flattenRows cols rows = some recs) (j : Nat) (rec : Record)
    (hj : recs.get? j = some rec) :
    ∃ r, rows.get? j = some r ∧ flattenRow cols r = some rec := by
  induction rows generalizing recs j with
  | nil =>
    simp only [flattenRows, Option.some.injEq] at h
    subst h
    simp at hj
  | cons r rs ih =>
    simp only [flattenRows] at h
    cases hr : flattenRow cols r with
    | none => rw [hr] at h; exact absurd h (by simp)
    | some rec₀ =>
      rw [hr] at h
      cases hrs : flattenRows cols rs with
      | none => rw [hrs] at h; exact absurd h (by simp)
      | some recs₁ =>
        rw [hrs] at h
        simp only [Option.some.injEq] at h
        subst h
        cases j with
        | zero =>
          simp only [List.get?_cons_zero, Option.some.injEq] at hj
          exact ⟨r, rfl, by rw [hr, hj]⟩
        | succ j₁ =>
          simp only [List.get?_cons_succ] at hj ⊢
          exact ih recs₁ hrs j₁ hj

theorem flattenRows_all_some (cols : List String) (rows : List Row)
    (hwf : ∀ r ∈ rows, ∃ items, r = some items ∧ items.length = cols.length) :
    ∃ recs, flattenRows cols rows = some recs := by
  induction rows with
  | nil => exact ⟨[], rfl⟩
  | cons r rs ih =>
    obtain ⟨items, hr, hlen⟩ := hwf r (List.mem_cons_self _ _)
    obtain ⟨recs₁, hrs⟩ := ih (fun r₁ h₁ => hwf r₁ (List.mem_cons_of_mem _ h₁))
    refine ⟨buildRecord (cols.zip items) :: recs₁, ?_⟩
    simp [flattenRows, hr, flattenRow, hlen.ge, hrs]

/-- C3: for every well-formed block (non-empty columns, non-empty data, every
row as long as the column list), normalization after pydantic parsing yields
exactly one record per data row, in source row order; each record holds
exactly the uppercased column names as keys, and every stored value is the row
value at the position of a column bearing that (uppercased) name.  A block
with empty columns or empty data normalizes to the empty record list. -/
theorem C3_normalization :
    (∀ (cols : List String) (data : List Row), cols = [] ∨ data = [] →
       flatten_response (parseBlock cols data) = some []) ∧
    (∀ (cols : List String) (data : List Row),
       cols ≠ [] → data ≠ [] →
       (∀ r ∈ data, ∃ items, r = some items ∧ items.length = cols.length) →
       ∃ recs, flatten_response (parseBlock cols data) = some recs ∧
         recs.length = data.length ∧
         (∀ rec ∈ recs, ∀ k,
            (dget rec k).isSome = true ↔ k ∈ cols.map String.toUpper) ∧
         (∀ (j : Nat) (rec : Record) (k : String) (v : Val),
            recs.get? j = some rec → dget rec k = some v →
            ∃ items c i, data.get? j = some (some items) ∧ cols.get? i = some c ∧
              c.toUpper = k ∧ items.get? i = some v)) := by
  constructor
  · intro cols data h
    cases h with
    | inl hc => simp [flatten_response, parseBlock, hc]
    | inr hd => simp [flatten_response, parseBlock, hd]
  · intro cols data hc hd hwf
    have hculen : (cols.map String.toUpper).length = cols.length := List.length_map _ _
    have hwfu : ∀ r ∈ data, ∃ items, r = some items
        ∧ items.length = (cols.map String.toUpper).length := by
      intro r hr
      obtain ⟨items, h1, h2⟩ := hwf r hr
      exact ⟨items, h1, by rw [hculen, h2]⟩
    obtain ⟨recs, hrecs⟩ := flattenRows_all_some (cols.map String.toUpper) data hwfu
    have hcu : cols.map String.toUpper ≠ [] := by
      intro h; exact hc (List.map_eq_nil.mp h)
    have hflat : flatten_response (parseBlock cols data) = some recs := by
      simp only [flatten_response, parseBlock]
      rw [if_neg (by simp [hcu, hd])]
      exact hrecs
    have hrow : ∀ (j : Nat) (rec : Record), recs.get? j = some rec →
        ∃ items, data.get? j = some (some items)
          ∧ (cols.map String.toUpper).length ≤ items.length
          ∧ rec = buildRecord ((cols.map String.toUpper).zip items) := by
      intro j rec hj
      obtain ⟨r, hrj, hfr⟩ := flattenRows_get _ data recs hrecs j rec hj
      obtain ⟨items, hri, hlen⟩ := hwfu r (List.get?_mem hrj)
      subst hri
      refine ⟨items, hrj, hlen.ge, ?_⟩
      simp only [flattenRow, hlen.ge, if_true] at hfr
      exact (Option.some.inj hfr).symm
    refine ⟨recs, hflat, flattenRows_length _ _ _ hrecs, ?_, ?_⟩
    · intro rec hrec k
      obtain ⟨j, hj⟩ := List.mem_iff_get?.mp hrec
      obtain ⟨items, hdj, hle, hbuild⟩ := hrow j rec hj
      rw [hbuild, buildRecord_isSome, List.map_fst_zip _ _ hle]
    · intro j rec k v hj hkv
      obtain ⟨items, hdj, hle, hbuild⟩ := hrow j rec hj
      rw [hbuild] at hkv
      have hmem := buildRecord_mem _ _ _ hkv
      obtain ⟨i, hki, hvi⟩ := mem_zip_get _ _ _ _ hmem
      rw [List.get?_map] at hki
      cases hcolsi : cols.get? i with
      | none => rw [hcolsi] at hki; exact absurd hki (by simp)
      | some c =>
        rw [hcolsi] at hki
        have hki₂ : c.toUpper = k := by simpa using hki
        exact ⟨items, c, i, hdj, hcolsi, hki₂, hvi⟩

/-- C3 witness: the spec's own scenario, a marketdata block with columns
secid and duration and one row, normalizes to one record keyed SECID and
DURATION. -/
theorem C3_normalization_witness :
    ∃ recs,
      flatten_response (parseBlock ["secid", "duration"]
        [some [Val.vstr "AMUNIBB2DER6", Val.vnum 0]]) = some recs ∧
      recs.length = ([some [Val.vstr "AMUNIBB2DER6", Val.vnum 0]] : List Row).length ∧
      (∀ rec ∈ recs, ∀ k,
         (dget rec k).isSome = true ↔ k ∈ ["secid", "duration"].map String.toUpper) ∧
      (∀ (j : Nat) (rec : Record) (k : String) (v : Val),
         recs.get? j = some rec → dget rec k = some v →
         ∃ items c i,
           ([some [Val.vstr "AMUNIBB2DER6", Val.vnum 0]] : List Row).get? j
             = some (some items) ∧
           (["secid", "duration"] : List String).get? i = some c ∧
           c.toUpper = k ∧ items.get? i = some v) :=
  C3_normalization.2 ["secid", "duration"] [some [Val.vstr "AMUNIBB2DER6", Val.vnum 0]]
    (by decide) (by decide)
    (fun r hr => by
      simp only [List.mem_singleton] at hr
      exact ⟨[Val.vstr "AMUNIBB2DER6", Val.vnum 0], hr, rfl⟩)

/-
Merge engine.  `MicexISSClient._merge_data` iterates the source dict and, for
record-list block values (the shape `_get_data` produces), extends the target
entry: `target[blockname] = target.get(blockname, []) + source[blockname]`.
The dict-valued branch of `_merge_data` handles raw columnar blocks, a shape
that never reaches it from `_get_data` (whose values are always lists); the
model covers the record-list shape, which is the one the merge claims are
about.
-/

/-- The accumulation statement `d[nm] = d.get(nm, []) + recs`, shared by the
pagination loop of `_get_data` and by `_merge_data`. -/
def dappend (d : Dataset) (nm : String) (recs : List Record) : Dataset :=
  dinsert d nm (dgetD d nm [] ++ recs)

/-- `MicexISSClient._merge_data` on record-list datasets: fold the source's
entries into the target in source iteration order. -/
def merge_data (target source : Dataset) : Dataset :=
  source.foldl (fun t p => dappend t p.1 p.2) target

theorem dget_dappend_self (d : Dataset) (nm : String) (recs : List Record) :
    dget (dappend d nm recs) nm = some (dgetD d nm [] ++ recs) :=
  dget_dinsert_self d nm _

theorem dget_dappend_ne (d : Dataset) (nm k : String) (recs : List Record)
    (h : nm ≠ k) : dget (dappend d nm recs) k = dget d k :=
  dget_dinsert_ne d k nm _ h

/-- Per-name content of a merge: with a duplicate-free source (a Python dict),
the merged entry for every name is the target's records followed by the
source's. -/
theorem merge_data_dgetD (target source : Dataset) (nm : String)
    (hs : (source.map Prod.fst).Nodup) :
    dgetD (merge_data target source) nm []
      = dgetD target nm [] ++ dgetD source nm [] := by
  induction source generalizing target with
  | nil => simp [merge_data, dgetD, dget]
  | cons p rest ih =>
    simp only [List.map_cons, List.nodup_cons] at hs
    have hstep : merge_data target (p :: rest)
        = merge_data (dappend target p.1 p.2) rest := rfl
    rw [hstep, ih (dappend target p.1 p.2) hs.2]
    by_cases hnm : nm = p.1
    · subst hnm
      have hrest : dget rest p.1 = none :=
        dget_eq_none_of_not_mem rest p.1 hs.1
      simp [dgetD, dget_dappend_self, dget, hrest]
    · have hne : p.1 ≠ nm := fun he => hnm he.symm
      simp [dgetD, dget_dappend_ne target p.1 nm p.2 hne, dget, hne,
        List.append_assoc]

/-- A name is absent from a merge exactly when it is absent from both
operands. -/
theorem merge_data_dget_none (target source : Dataset) (nm : String) :
    dget (merge_data target source) nm = none
      ↔ dget target nm = none ∧ dget source nm = none := by
  induction source generalizing target with
  | nil => simp [merge_data, dget]
  | cons p rest ih =>
    have hstep : merge_data target (p :: rest)
        = merge_data (dappend target p.1 p.2) rest := rfl
    rw [hstep, ih (dappend target p.1 p.2)]
    have happ : dget (dappend target p.1 p.2) nm = none
        ↔ dget target nm = none ∧ ¬p.1 = nm := by
      by_cases hnm : p.1 = nm
      · subst hnm
        simp [dget_dappend_self]
      · have hne : p.1 ≠ nm := hnm
        rw [dget_dappend_ne target p.1 nm p.2 hne]
        simp [hnm]
    rw [happ]
    simp only [dget]
    by_cases hnm : p.1 = nm <;> simp [hnm]

/-- C4: merging record-list Datasets is order-preserving concatenation per
block and associative in the claimed sense: merging B into A and then C into
the result gives, for every block name present in any of the three, the
concatenation of A's, B's, then C's record sequences (a dataset lacking the
name contributes the empty sequence), with no deduplication. -/
theorem C4_merge_concat (A B C : Dataset)
    (hB : (B.map Prod.fst).Nodup) (hC : (C.map Prod.fst).Nodup) :
    (∀ nm, dgetD (merge_data (merge_data A B) C) nm []
        = dgetD A nm [] ++ dgetD B nm [] ++ dgetD C nm []) ∧
    (∀ nm, ¬(dget A nm = none ∧ dget B nm = none ∧ dget C nm = none) →
        dget (merge_data (merge_data A B) C) nm
          = some (dgetD A nm [] ++ dgetD B nm [] ++ dgetD C nm [])) := by
  have h1 : ∀ nm, dgetD (merge_data (merge_data A B) C) nm []
      = dgetD A nm [] ++ dgetD B nm [] ++ dgetD C nm [] := by
    intro nm
    rw [merge_data_dgetD _ _ _ hC, merge_data_dgetD _ _ _ hB]
  refine ⟨h1, ?_⟩
  intro nm hne
  cases hcase : dget (merge_data (merge_data A B) C) nm with
  | none =>
    rw [merge_data_dget_none, merge_data_dget_none] at hcase
    exact absurd ⟨hcase.1.1, hcase.1.2, hcase.2⟩ hne
  | some l =>
    have hval : dgetD (merge_data (merge_data A B) C) nm [] = l := by
      simp [dgetD, hcase]
    rw [h1 nm] at hval
    exact congrArg some hval.symm

/-- C4 witness: three concrete one-block datasets sharing block name x merge
to the concatenation of their record lists in A, B, C order. -/
theorem C4_merge_concat_witness :
    dget (merge_data (merge_data
        [("x", [[("K", Val.vnum 1)]])]
        [("x", [[("K", Val.vnum 2)]])])
        [("x", [[("K", Val.vnum 3)]]), ("y", [])]) "x"
      = some (dgetD [("x", [[("K", Val.vnum 1)]])] "x" []
          ++ dgetD [("x", [[("K", Val.vnum 2)]])] "x" []
          ++ dgetD [("x", [[("K", Val.vnum 3)]]), ("y", [])] "x" []) :=
  (C4_merge_concat
      [("x", [[("K", Val.vnum 1)]])]
      [("x", [[("K", Val.vnum 2)]])]
      [("x", [[("K", Val.vnum 3)]]), ("y", [])]
      (by decide) (by decide)).2 "x" (by decide)

/-
Paginated fetcher: `MicexISSClient._get_data` and `_send_request`.

`_get_data(url, **params)` reads `limit` from the params.  In unlimited mode
it issues one request (no `start` parameter) and assigns each block's
normalized records into the result dict.  Otherwise it runs
`start = 0; count = 1; while count > 0:` — each iteration sends `start`,
appends each response block's normalized records to the accumulated dict and
sets `count` to the length of the block just normalized (so `count` ends up
being the length of the LAST block processed, and a response with no blocks
leaves `count` untouched), then advances `start` by `count`.

`_send_request` catches only `aiohttp.ContentTypeError` (content-type
mismatch), returning `\x7b\x7d`; a body with the right content type that is not
valid JSON makes `response.json()` raise a JSON decode error, which is NOT
caught and propagates to the caller.
-/

inductive FetchResult where
  | ok (d : Dataset)
  | err
  | diverge
deriving DecidableEq, Repr

/-- The `for blockname in response.keys()` loop of one while-iteration of
`_get_data`: append each block's normalized records under its name and set
`count` to their number; a response with no blocks leaves dataset and count
untouched.  `none` models an exception escaping from `flatten_response`. -/
def processPage (d : Dataset) (c : Nat) : Response → Option (Dataset × Nat)
  | [] => some (d, c)
  | p :: rest =>
    match flatten_response p.2 with
    | none => none
    | some recs => processPage (dappend d p.1 recs) recs.length rest

/-- The block loop of the `limit == "unlimited"` branch: plain assignment
`data[blockname] = block_data` for each block of the single response. -/
def processPageU (d : Dataset) : Response → Option Dataset
  | [] => some d
  | p :: rest =>
    match flatten_response p.2 with
    | none => none
    | some recs => processPageU (dinsert d p.1 recs) rest

/-- The `while count > 0` loop of `_get_data`.  `server` maps the value of the
`start` query parameter to the block dict `_send_request` returns for that
page; the returned list logs the `start` parameter of every request issued,
in order.  Fuel bounds how many iterations are modelled; running out of fuel
yields `FetchResult.diverge`. -/
def getDataLoop (server : Option Nat → Response) :
    Nat → Nat → Nat → Dataset → List (Option Nat) → List (Option Nat) × FetchResult
  | 0, _, _, _, log => (log, FetchResult.diverge)
  | fuel + 1, start, count, d, log =>
    if count = 0 then (log, FetchResult.ok d)
    else
      match processPage d count (server (some start)) with
      | none => (log ++ [some start], FetchResult.err)
      | some dc => getDataLoop server fuel (start + dc.2) dc.2 dc.1 (log ++ [some start])

/-- `MicexISSClient._get_data`: unlimited mode issues exactly one request with
no `start` parameter and assigns each block's records; any other `limit` runs
the paginated loop from cursor 0 with `count` initialized to 1. -/
def get_data (server : Option Nat → Response) (limit : Option String) (fuel : Nat) :
    List (Option Nat) × FetchResult :=
  if limit = some "unlimited" then
    match processPageU [] (server none) with
    | none => ([none], FetchResult.err)
    | some d => ([none], FetchResult.ok d)
  else
    getDataLoop server fuel 0 1 [] []

/-- The ways a page response can look to `_send_request` before parsing. -/
inductive RawResponse where
  | wrongContentType
  | undecodableBody
  | decoded (blocks : Response)
deriving DecidableEq, Repr

/-- `MicexISSClient._send_request`: `aiohttp.ContentTypeError` (raised by
`response.json()` on a content-type mismatch) is the only exception caught,
and is answered with the empty dict; a JSON decode error on an undecodable
body is not caught and propagates. -/
def send_request : RawResponse → Except ErrKind Response
  | RawResponse.wrongContentType => Except.ok []
  | RawResponse.undecodableBody => Except.error ErrKind.jsonDecodeError
  | RawResponse.decoded blocks => Except.ok blocks

/-
Fan-out orchestration: `get_available_bonds`, `get_securities_history` and
`get_bonds_bondization` each spawn one `_get_data` task per identifier, wait
for all of them, merge the task results into one dict in task order and hand
it to the handler.  The model returns the pair (all requests issued by all
branches, dataset handed to the handler).  The branches run concurrently in
the source; their request logs are concatenated in branch order here, which
is enough to count requests and to name their URLs and start parameters.
-/

abbrev ReqLog := List (String × Option Nat)

/-- One fan-out branch: run `_get_data` against one URL and tag its request
log with that URL. -/
def branchRun (server : String → Option Nat → Response) (url : String)
    (limit : Option String) (fuel : Nat) : ReqLog × FetchResult :=
  ((get_data (server url) limit fuel).1.map (fun o => (url, o)),
   (get_data (server url) limit fuel).2)

/-- The merge loop `for task in tasks: self._merge_data(data, task.result())`:
fold the branch datasets into the accumulator in task order; a failed branch
re-raises its exception. -/
def mergeTasks (data : Dataset) : List FetchResult → FetchResult
  | [] => FetchResult.ok data
  | FetchResult.ok d :: rest => mergeTasks (merge_data data d) rest
  | FetchResult.err :: _ => FetchResult.err
  | FetchResult.diverge :: _ => FetchResult.diverge

/-- Join all branches: concatenate their request logs and merge their
datasets starting from the empty dict. -/
def collectTasks (branches : List (ReqLog × FetchResult)) : ReqLog × FetchResult :=
  (branches.foldr (fun b acc => b.1 ++ acc) [],
   mergeTasks [] (branches.map Prod.snd))

/-- `MicexISSClient.get_available_bonds`: an empty boardgroup tuple is
replaced by the default `(58,)`; the limit entry of `params` is unconditionally set to
the string unlimited, overriding whatever the caller passed; then one branch
runs per board group. -/
def get_available_bonds (server : String → Option Nat → Response)
    (boardgroups : List Nat) (limit : Option String) (fuel : Nat) :
    ReqLog × FetchResult :=
  collectTasks ((if boardgroups = [] then [58] else boardgroups).map
    (fun bg => branchRun server (bonds_url bg) (some "unlimited") fuel))

/-- `MicexISSClient.get_securities_history`: with no security ids the handler
receives the empty dict and no request is issued; otherwise one branch per
security id, caller's params (including `limit`) passed through. -/
def get_securities_history (server : String → Option Nat → Response)
    (engine market board : String) (secids : List String) (limit : Option String)
    (fuel : Nat) : ReqLog × FetchResult :=
  if secids = [] then ([], FetchResult.ok [])
  else collectTasks (secids.map
    (fun sid => branchRun server (sec_history_url engine market board sid) limit fuel))

/-- `MicexISSClient.get_bonds_bondization`: with no security ids the handler
receives the empty dict and no request is issued; otherwise one branch per
security id, caller's params (including `limit`) passed through. -/
def get_bonds_bondization (server : String → Option Nat → Response)
    (secids : List String) (limit : Option String) (fuel : Nat) :
    ReqLog × FetchResult :=
  if secids = [] then ([], FetchResult.ok [])
  else collectTasks (secids.map
    (fun sid => branchRun server (sec_bondization_url sid) limit fuel))

/-- The last entry of a block dict, i.e. the block whose record count ends up
in `count` when the page has any blocks at all. -/
def lastBlock : Response → Option (String × BlockItems)
  | [] => none
  | [p] => some p
  | _ :: rest => lastBlock rest

/-- The number of records the last block of a page normalizes to (0 for a
page with no blocks). -/
def lastBlockCount (resp : Response) : Nat :=
  match lastBlock resp with
  | some p => ((flatten_response p.2).getD []).length
  | none => 0

/-- The record count a page at a given cursor contributes. -/
def pageCount (server : Option Nat → Response) : Option Nat → Nat
  | some s => lastBlockCount (server (some s))
  | none => 0

/-- Normalize every block of a response in order, keeping names: the dataset
the unlimited branch builds. -/
def flattenAll : Response → Option Dataset
  | [] => some []
  | p :: rest =>
    match flatten_response p.2 with
    | none => none
    | some recs => (flattenAll rest).map (fun d => (p.1, recs) :: d)

theorem dget_append {α : Type} (d₁ d₂ : List (String × α)) (k : String) :
    dget (d₁ ++ d₂) k = match dget d₁ k with
      | some v => some v
      | none => dget d₂ k := by
  induction d₁ with
  | nil => simp [dget]
  | cons p rest ih =>
    by_cases h : p.1 = k <;> simp [dget, h, ih]

theorem not_mem_of_dget_none {α : Type} (d : List (String × α)) (k : String)
    (h : dget d k = none) : k ∉ d.map Prod.fst := by
  induction d with
  | nil => simp
  | cons p rest ih =>
    simp only [dget] at h
    by_cases hp : p.1 = k
    · rw [hp] at h; simp at h
    · rw [if_neg hp] at h
      simp only [List.map_cons, List.mem_cons]
      push_neg
      exact ⟨fun he => hp he.symm, ih h⟩

/-- On a response with pairwise-distinct block names, none of which is already
a key of the accumulator, the unlimited-mode block loop appends one entry per
block, each holding that block's normalized records. -/
theorem processPageU_eq (resp : Response) (d : Dataset)
    (hn : (resp.map Prod.fst).Nodup)
    (hfresh : ∀ nm ∈ resp.map Prod.fst, dget d nm = none) :
    processPageU d resp = (flattenAll resp).map (fun t => d ++ t) := by
  induction resp generalizing d with
  | nil => simp [processPageU, flattenAll]
  | cons p rest ih =>
    simp only [List.map_cons, List.nodup_cons] at hn
    simp only [processPageU, flattenAll]
    cases hf : flatten_response p.2 with
    | none => rfl
    | some recs =>
      have hpd : dget d p.1 = none := hfresh p.1 (by simp)
      have hins : dinsert d p.1 recs = d ++ [(p.1, recs)] :=
        dinsert_of_not_mem d p.1 recs (not_mem_of_dget_none d p.1 hpd)
      have hfresh₂ : ∀ nm ∈ rest.map Prod.fst, dget (d ++ [(p.1, recs)]) nm = none := by
        intro nm hnm
        rw [dget_append]
        rw [hfresh nm (by simp [hnm])]
        have hne : p.1 ≠ nm := fun he => hn.1 (he ▸ hnm)
        simp [dget, hne]
      show processPageU (dinsert d p.1 recs) rest
          = Option.map (fun t => d ++ t)
              (Option.map (fun d₂ => (p.1, recs) :: d₂) (flattenAll rest))
      rw [hins, ih (d ++ [(p.1, recs)]) hn.2 hfresh₂]
      cases hfa : flattenAll rest with
      | none => rfl
      | some t => simp

/-- C8: a fetch issued with limit unlimited issues exactly one HTTP request
(with no start parameter, hence no pagination offset is tracked), and its
result, when no block raises during normalization, is every block of the
response normalized in response order; a raising block surfaces the error. -/
theorem C8_unlimited_single_request (server : Option Nat → Response) (fuel : Nat)
    (hn : ((server none).map Prod.fst).Nodup) :
    get_data server (some "unlimited") fuel
      = ([none],
         match flattenAll (server none) with
         | none => FetchResult.err
         | some d => FetchResult.ok d) := by
  have hp := processPageU_eq (server none) [] hn (fun nm _ => rfl)
  unfold get_data
  rw [if_pos rfl, hp]
  cases hfa : flattenAll (server none) with
  | none => rfl
  | some t => simp

/-- A concrete unlimited-mode server for exercising the fetcher theorems. -/
def demoServerU : Option Nat → Response :=
  fun _ => [("marketdata", ⟨["SECID", "DURATION"],
    [some [Val.vstr "AMUNIBB2DER6", Val.vnum 0]]⟩)]

/-- C8 witness: one concrete unlimited fetch issues the single request and
returns the response's one block normalized. -/
theorem C8_unlimited_single_request_witness :
    get_data demoServerU (some "unlimited") 0
      = ([none],
         match flattenAll (demoServerU none) with
         | none => FetchResult.err
         | some d => FetchResult.ok d) :=
  C8_unlimited_single_request demoServerU 0 (by decide)

/-- In unlimited mode a branch logs exactly one request, at its URL, with no
start parameter, whatever the server answers and whether or not
normalization raises. -/
theorem branchRun_unlimited_log (server : String → Option Nat → Response)
    (url : String) (fuel : Nat) :
    (branchRun server url (some "unlimited") fuel).1 = [(url, none)] := by
  unfold branchRun get_data
  rw [if_pos rfl]
  cases processPageU [] (server url none) <;> rfl

theorem collectTasks_log_cons (b : ReqLog × FetchResult)
    (bs : List (ReqLog × FetchResult)) :
    (collectTasks (b :: bs)).1 = b.1 ++ (collectTasks bs).1 := rfl

/-- A fan-out whose branches each log exactly one request logs exactly one
request per identifier, in identifier order. -/
theorem collectTasks_map_singleton {α : Type} (f : α → ReqLog × FetchResult)
    (g : α → String × Option Nat) (h : ∀ x, (f x).1 = [g x]) (l : List α) :
    (collectTasks (l.map f)).1 = l.map g := by
  induction l with
  | nil => rfl
  | cons x rest ih =>
    rw [List.map_cons, collectTasks_log_cons, h x, ih, List.map_cons]
    rfl

/-- C10: get_available_bonds overrides the caller's limit with unlimited: its
outcome is independent of the limit argument, and it issues exactly one
request per (defaulted) board group, each with no start parameter, i.e. every
board group is fetched in single-request unlimited mode. -/
theorem C10_bonds_limit_override (server : String → Option Nat → Response)
    (boardgroups : List Nat) (limit : Option String) (fuel : Nat) :
    get_available_bonds server boardgroups limit fuel
      = get_available_bonds server boardgroups none fuel ∧
    (get_available_bonds server boardgroups limit fuel).1
      = (if boardgroups = [] then [58] else boardgroups).map
          (fun bg => (bonds_url bg, none)) := by
  refine ⟨rfl, ?_⟩
  exact collectTasks_map_singleton
    (fun bg => branchRun server (bonds_url bg) (some "unlimited") fuel)
    (fun bg => (bonds_url bg, none))
    (fun bg => branchRun_unlimited_log server (bonds_url bg) fuel)
    (if boardgroups = [] then [58] else boardgroups)

/-- C5 counterexample: get_available_bonds called with an empty board-group
set does NOT issue zero requests: the code substitutes the default board
group 58 and issues one (unlimited) request for it. -/
theorem C5_counterexample_default_boardgroup :
    get_available_bonds (fun _ _ => []) [] none 1
      = ([(bonds_url 58, none)], FetchResult.ok []) := by
  rfl

/-- C5 amended: the empty-identifier no-request, empty-dataset property holds
for get_securities_history and get_bonds_bondization; get_available_bonds
instead replaces an empty board-group set by the default board group 58 and
issues exactly one unlimited-mode request for it. -/
theorem C5_amended_empty_fanout (server : String → Option Nat → Response)
    (engine market board : String) (limit : Option String) (fuel : Nat) :
    get_securities_history server engine market board [] limit fuel
        = ([], FetchResult.ok []) ∧
    get_bonds_bondization server [] limit fuel = ([], FetchResult.ok []) ∧
    (get_available_bonds server [] limit fuel).1 = [(bonds_url 58, none)] := by
  refine ⟨rfl, rfl, ?_⟩
  exact (C10_bonds_limit_override server [] limit fuel).2

/-- C6 counterexample: a page whose body is undecodable (while the declared
content type is right) is NOT treated as an empty block set: `_send_request`
catches only the content-type error, so the JSON decode error propagates to
the caller instead of producing the empty dict. -/
theorem C6_counterexample_undecodable_propagates :
    send_request RawResponse.undecodableBody = Except.error ErrKind.jsonDecodeError ∧
      send_request RawResponse.undecodableBody ≠ Except.ok [] :=
  ⟨rfl, fun h => Except.noConfusion h⟩

/-- C6 amended: only a content-type mismatch is treated as an empty block set
(`aiohttp.ContentTypeError` is the sole exception caught); pagination then
proceeds by the normal count rule, an empty block set leaving dataset and
count untouched in paginated mode and contributing nothing in unlimited mode;
an undecodable body instead raises a JSON decode error that propagates. -/
theorem C6_amended_content_type_only (d : Dataset) (c : Nat) :
    send_request RawResponse.wrongContentType = Except.ok [] ∧
    processPage d c [] = some (d, c) ∧
    processPageU d [] = some d ∧
    send_request RawResponse.undecodableBody = Except.error ErrKind.jsonDecodeError :=
  ⟨rfl, rfl, rfl, rfl⟩

theorem lastBlock_cons_cons (p q : String × BlockItems) (rest : Response) :
    lastBlock (p :: q :: rest) = lastBlock (q :: rest) := rfl

theorem lastBlock_mem (resp : Response) (p : String × BlockItems)
    (h : lastBlock resp = some p) : p ∈ resp := by
  induction resp with
  | nil => simp [lastBlock] at h
  | cons q rest ih =>
    cases rest with
    | nil =>
      simp only [lastBlock, Option.some.injEq] at h
      simp [h]
    | cons r rest₂ =>
      rw [lastBlock_cons_cons] at h
      exact List.mem_cons_of_mem q (ih h)

/-- A non-empty page that the block loop processes without raising sets the
count to the record count of its last block. -/
theorem processPage_last (resp : Response) :
    ∀ (d : Dataset) (c : Nat) (d₁ : Dataset) (c₁ : Nat), resp ≠ [] →
    processPage d c resp = some (d₁, c₁) →
    ∃ nm b recs, lastBlock resp = some (nm, b) ∧ flatten_response b = some recs ∧
      c₁ = recs.length := by
  induction resp with
  | nil => intro d c d₁ c₁ hne; exact absurd rfl hne
  | cons p rest ih =>
    intro d c d₁ c₁ _ h
    simp only [processPage] at h
    cases hf : flatten_response p.2 with
    | none => rw [hf] at h; exact absurd h (by simp)
    | some recs =>
      rw [hf] at h
      cases rest with
      | nil =>
        simp only [processPage, Option.some.injEq, Prod.mk.injEq] at h
        exact ⟨p.1, p.2, recs, by simp [lastBlock], hf, h.2.symm⟩
      | cons q rest₂ =>
        obtain ⟨nm, b, recs₂, hl, hf₂, hc⟩ :=
          ih (dappend d p.1 recs) recs.length d₁ c₁ (by simp) h
        exact ⟨nm, b, recs₂, by rw [lastBlock_cons_cons]; exact hl, hf₂, hc⟩

/-- Processing a page whose last block is named L (block names being distinct,
as in a dict) grows the accumulated entry for L by exactly the page's count,
the last block's record count. -/
theorem processPage_dlen (L : String) (resp : Response) :
    ∀ (d : Dataset) (c : Nat) (d₁ : Dataset) (c₁ : Nat),
    (resp.map Prod.fst).Nodup →
    (lastBlock resp).map Prod.fst = some L →
    processPage d c resp = some (d₁, c₁) →
    (dgetD d₁ L []).length = (dgetD d L []).length + c₁ := by
  induction resp with
  | nil => intro d c d₁ c₁ _ hl; simp [lastBlock] at hl
  | cons p rest ih =>
    intro d c d₁ c₁ hnd hl h
    simp only [processPage] at h
    cases hf : flatten_response p.2 with
    | none => rw [hf] at h; exact absurd h (by simp)
    | some recs =>
      rw [hf] at h
      cases rest with
      | nil =>
        have hpL : p.1 = L := by simpa [lastBlock] using hl
        simp only [processPage, Option.some.injEq, Prod.mk.injEq] at h
        rw [← h.1, ← h.2, ← hpL]
        simp [dgetD, dget_dappend_self]
      | cons q rest₂ =>
        rw [lastBlock_cons_cons] at hl
        rw [List.map_cons, List.nodup_cons] at hnd
        have hmem : L ∈ (q :: rest₂).map Prod.fst := by
          cases hlb : lastBlock (q :: rest₂) with
          | none => rw [hlb] at hl; exact absurd hl (by simp)
          | some pr =>
            rw [hlb] at hl
            have hprL : pr.1 = L := by simpa using hl
            exact hprL ▸ List.mem_map_of_mem Prod.fst (lastBlock_mem _ _ hlb)
        have hpL : p.1 ≠ L := fun he => hnd.1 (he ▸ hmem)
        have hstep := ih (dappend d p.1 recs) recs.length d₁ c₁ hnd.2 hl h
        have hkeep : dgetD (dappend d p.1 recs) L [] = dgetD d L [] := by
          simp [dgetD, dget_dappend_ne d p.1 L recs hpL]
        rw [hstep, hkeep]

/-- The final count of a non-empty successfully processed page is its
lastBlockCount. -/
theorem processPage_count_eq (resp : Response) (d : Dataset) (c : Nat)
    (d₁ : Dataset) (c₁ : Nat) (hne : resp ≠ [])
    (h : processPage d c resp = some (d₁, c₁)) :
    c₁ = lastBlockCount resp := by
  obtain ⟨nm, b, recs, hl, hf, hc⟩ := processPage_last resp d c d₁ c₁ hne h
  rw [hc]
  simp [lastBlockCount, hl, hf]

theorem getDataLoop_zero (server : Option Nat → Response) (s c : Nat) (d : Dataset)
    (log : List (Option Nat)) :
    getDataLoop server 0 s c d log = (log, FetchResult.diverge) := rfl

theorem getDataLoop_succ (server : Option Nat → Response) (f s c : Nat) (d : Dataset)
    (log : List (Option Nat)) :
    getDataLoop server (f + 1) s c d log
      = if c = 0 then (log, FetchResult.ok d)
        else match processPage d c (server (some s)) with
          | none => (log ++ [some s], FetchResult.err)
          | some dc => getDataLoop server f (s + dc.2) dc.2 dc.1 (log ++ [some s]) := rfl

/-- Against a server that always answers with an empty block set, the loop
never terminates: the count is never written, stays at its positive value,
and every fuel bound is exhausted. -/
theorem emptyPageServer_diverges :
    ∀ (f s c : Nat) (d : Dataset) (log : List (Option Nat)), c ≠ 0 →
    (getDataLoop (fun _ => []) f s c d log).2 = FetchResult.diverge := by
  intro f
  induction f with
  | zero => intro s c d log _; rw [getDataLoop_zero]
  | succ f ih =>
    intro s c d log hc
    rw [getDataLoop_succ, if_neg hc]
    exact ih (s + c) c d (log ++ [some s]) hc

/-- If the loop, entered with a nonzero count, terminates normally, then some
requested page's last block normalized to zero records. -/
theorem getDataLoop_ok_last_empty (server : Option Nat → Response) :
    ∀ (f s c : Nat) (d : Dataset) (log log₁ : List (Option Nat)) (d₁ : Dataset),
    c ≠ 0 →
    getDataLoop server f s c d log = (log₁, FetchResult.ok d₁) →
    ∃ sL nm b, (some sL) ∈ log₁ ∧ lastBlock (server (some sL)) = some (nm, b) ∧
      flatten_response b = some [] := by
  intro f
  induction f with
  | zero =>
    intro s c d log log₁ d₁ _ h
    rw [getDataLoop_zero] at h
    exact absurd (congrArg Prod.snd h) (by simp)
  | succ f ih =>
    intro s c d log log₁ d₁ hc h
    rw [getDataLoop_succ, if_neg hc] at h
    cases hp : processPage d c (server (some s)) with
    | none => rw [hp] at h; exact absurd (congrArg Prod.snd h) (by simp)
    | some dc =>
      rw [hp] at h
      have h₂ : getDataLoop server f (s + dc.2) dc.2 dc.1 (log ++ [some s])
          = (log₁, FetchResult.ok d₁) := h
      by_cases hc₂ : dc.2 = 0
      · cases f with
        | zero =>
          rw [getDataLoop_zero] at h₂
          exact absurd (congrArg Prod.snd h₂) (by simp)
        | succ f₂ =>
          rw [getDataLoop_succ, if_pos hc₂] at h₂
          have hlog : log₁ = log ++ [some s] := (congrArg Prod.fst h₂).symm
          have hne : server (some s) ≠ [] := by
            intro hnil
            rw [hnil] at hp
            have hdc : (d, c) = dc := by simpa [processPage] using hp
            exact hc ((congrArg Prod.snd hdc).trans hc₂)
          have hp₂ : processPage d c (server (some s)) = some (dc.1, dc.2) := by
            rw [hp, Prod.mk.eta]
          obtain ⟨nm, b, recs, hl, hf, hcl⟩ :=
            processPage_last (server (some s)) d c dc.1 dc.2 hne hp₂
          have hrecs : recs = [] := by
            have : recs.length = 0 := by omega
            exact List.length_eq_zero.mp this
          exact ⟨s, nm, b, by rw [hlog]; simp, hl, by rw [hf, hrecs]⟩
      · exact ih (s + dc.2) dc.2 dc.1 (log ++ [some s]) log₁ d₁ hc₂ h₂

/-- C1 counterexample: against a server always answering with no blocks at
all, the loop does not end at the first (empty) page as the claim asserts: it
keeps requesting pages (five requests within fuel 5, cursor creeping by the
stale count 1) and is still running when the fuel runs out. -/
theorem C1_counterexample_empty_block_set_loops :
    getDataLoop (fun _ => []) 5 0 1 [] []
      = ([some 0, some 1, some 2, some 3, some 4], FetchResult.diverge) := rfl

/-- C1 amended: the paginated loop is not guaranteed to terminate, and its
exit is tied to the LAST block processed, not to every block: (1) a page with
no blocks leaves dataset and count untouched, so (2) the loop entered with
count zero stops at once, (3) against a server of block-free pages the loop
runs forever (any fuel is exhausted), and (4) whenever the loop does stop
normally, some requested page's last block normalized to zero records. -/
theorem C1_amended_termination_rule :
    (∀ (d : Dataset) (c : Nat), processPage d c [] = some (d, c)) ∧
    (∀ (server : Option Nat → Response) (f s : Nat) (d : Dataset)
        (log : List (Option Nat)),
       getDataLoop server (f + 1) s 0 d log = (log, FetchResult.ok d)) ∧
    (∀ (f s c : Nat) (d : Dataset) (log : List (Option Nat)), c ≠ 0 →
       (getDataLoop (fun _ => []) f s c d log).2 = FetchResult.diverge) ∧
    (∀ (server : Option Nat → Response) (f s c : Nat) (d : Dataset)
        (log log₁ : List (Option Nat)) (d₁ : Dataset), c ≠ 0 →
       getDataLoop server f s c d log = (log₁, FetchResult.ok d₁) →
       ∃ sL nm b, (some sL) ∈ log₁ ∧ lastBlock (server (some sL)) = some (nm, b) ∧
         flatten_response b = some []) :=
  ⟨fun _ _ => rfl,
   fun server f s d log => by rw [getDataLoop_succ, if_pos rfl],
   emptyPageServer_diverges,
   getDataLoop_ok_last_empty⟩

/-- A block with two well-formed rows. -/
def blkTwoRows : BlockItems :=
  ⟨["SECID"], [some [Val.vstr "A"], some [Val.vstr "B"]]⟩

/-- A block with columns but no rows. -/
def blkNoRows : BlockItems := ⟨["SECID"], []⟩

/-- A server whose page at cursor 0 carries two records and whose later pages
carry the same block with no rows: a paginated fetch against it terminates
after the second page. -/
def demoServer : Option Nat → Response :=
  fun o => [("history", if o = some 0 then blkTwoRows else blkNoRows)]

/-- C1 witness: a concrete terminating run (two pages, ending on a page whose
block has no rows) instantiates the amended termination rule. -/
theorem C1_amended_termination_rule_witness :
    ∃ sL nm b, (some sL) ∈ ([some 0, some 2] : List (Option Nat)) ∧
      lastBlock (demoServer (some sL)) = some (nm, b) ∧
      flatten_response b = some [] :=
  C1_amended_termination_rule.2.2.2 demoServer 3 0 1 [] [] [some 0, some 2]
    [("history", [[("SECID", Val.vstr "A")], [("SECID", Val.vstr "B")]])]
    (by decide) (by decide)

/-- Loop invariant for a server whose pages are never block-free, all have
distinct block names, and always end with block L (a stable block set): a
normal run extends the request log by one entry per page and grows the
accumulated entry for L by exactly the per-page counts it logged. -/
theorem getDataLoop_sum (server : Option Nat → Response) (L : String)
    (H1 : ∀ s : Nat, server (some s) ≠ [])
    (H3 : ∀ s : Nat, ((server (some s)).map Prod.fst).Nodup)
    (H2 : ∀ s : Nat, (lastBlock (server (some s))).map Prod.fst = some L) :
    ∀ (f s c : Nat) (d : Dataset) (log log₁ : List (Option Nat)) (d₁ : Dataset),
    getDataLoop server f s c d log = (log₁, FetchResult.ok d₁) →
    ∃ tail, log₁ = log ++ tail ∧
      (dgetD d₁ L []).length
        = (dgetD d L []).length + (tail.map (pageCount server)).sum := by
  intro f
  induction f with
  | zero =>
    intro s c d log log₁ d₁ h
    rw [getDataLoop_zero] at h
    exact absurd (congrArg Prod.snd h) (by simp)
  | succ f ih =>
    intro s c d log log₁ d₁ h
    rw [getDataLoop_succ] at h
    by_cases hc : c = 0
    · rw [if_pos hc] at h
      have hlog : log₁ = log := (congrArg Prod.fst h).symm
      have hd : d₁ = d := by
        have := congrArg Prod.snd h
        simp only at this
        exact (FetchResult.ok.inj this).symm
      subst hlog
      subst hd
      exact ⟨[], by simp, by simp⟩
    · rw [if_neg hc] at h
      cases hp : processPage d c (server (some s)) with
      | none =>
        rw [hp] at h
        exact absurd (congrArg Prod.snd h) (by simp)
      | some dc =>
        rw [hp] at h
        have h₂ : getDataLoop server f (s + dc.2) dc.2 dc.1 (log ++ [some s])
            = (log₁, FetchResult.ok d₁) := h
        obtain ⟨tail, htl, hsum⟩ := ih (s + dc.2) dc.2 dc.1 (log ++ [some s]) log₁ d₁ h₂
        have hp₂ : processPage d c (server (some s)) = some (dc.1, dc.2) := by
          rw [hp, Prod.mk.eta]
        have hdlen := processPage_dlen L (server (some s)) d c dc.1 dc.2 (H3 s) (H2 s) hp₂
        have hcnt : dc.2 = lastBlockCount (server (some s)) :=
          processPage_count_eq (server (some s)) d c dc.1 dc.2 (H1 s) hp₂
        refine ⟨some s :: tail, by rw [htl]; simp, ?_⟩
        rw [hsum, hdlen]
        simp only [List.map_cons, List.sum_cons, pageCount]
        rw [← hcnt]
        omega

/-- C2: for a paginated fetch whose pages all end with the same block L (among
distinct block names per page, and no block-free pages), (a) each successfully
processed page sets the count — by which the `start` cursor then advances and
which the next request uses — to the record count of the page's last
normalized block, and (b) on a normal run from cursor 0 the final accumulated
record count for L equals the sum of the per-page counts over all requests
logged. -/
theorem C2_cursor_and_totals (server : Option Nat → Response) (L : String)
    (f : Nat) (log₁ : List (Option Nat)) (dfin : Dataset)
    (H1 : ∀ s : Nat, server (some s) ≠ [])
    (H3 : ∀ s : Nat, ((server (some s)).map Prod.fst).Nodup)
    (H2 : ∀ s : Nat, (lastBlock (server (some s))).map Prod.fst = some L)
    (Hrun : getDataLoop server f 0 1 [] [] = (log₁, FetchResult.ok dfin)) :
    (∀ (s c : Nat) (d d₁ : Dataset) (c₁ : Nat),
        processPage d c (server (some s)) = some (d₁, c₁) →
        c₁ = lastBlockCount (server (some s)) ∧
        ∀ (f₁ : Nat) (lg : List (Option Nat)), c ≠ 0 →
          getDataLoop server (f₁ + 1) s c d lg
            = getDataLoop server f₁ (s + c₁) c₁ d₁ (lg ++ [some s])) ∧
    (dgetD dfin L []).length = (log₁.map (pageCount server)).sum := by
  constructor
  · intro s c d d₁ c₁ hp
    refine ⟨processPage_count_eq _ d c d₁ c₁ (H1 s) hp, ?_⟩
    intro f₁ lg hc
    rw [getDataLoop_succ, if_neg hc, hp]
  · obtain ⟨tail, htl, hsum⟩ :=
      getDataLoop_sum server L H1 H3 H2 f 0 1 [] [] log₁ dfin Hrun
    rw [htl, hsum]
    simp [dgetD, dget]

/-- C2 witness: the two-page run against the demo server ends with two
accumulated history records, matching the per-page counts 2 and 0 of the two
logged requests. -/
theorem C2_cursor_and_totals_witness :
    (dgetD [("history", [[("SECID", Val.vstr "A")], [("SECID", Val.vstr "B")]])]
        "history" []).length
      = (([some 0, some 2] : List (Option Nat)).map (pageCount demoServer)).sum :=
  (C2_cursor_and_totals demoServer "history" 3 [some 0, some 2]
    [("history", [[("SECID", Val.vstr "A")], [("SECID", Val.vstr "B")]])]
    (fun _ => List.cons_ne_nil _ _)
    (fun _ => List.nodup_singleton _)
    (fun _ => rfl)
    (by decide)).2
